import Mathlib

/-!
# sanitize_fs: name sanitizer, tree collector, rename scheduler

A shallow embedding of `src/sanitizefs.c`.

* A C string is the list of its byte values (`List Nat`) without the terminating
  NUL, so a name is a list without `0`. A `char` buffer is the list of all its
  bytes, pointers into it are offsets; `replace_chars` rewrites such a buffer in
  place, as the source does.
* The globals `entries`, `num_entries`, `max_depth` are the record `Globals`,
  passed explicitly through `process_entry` and `dfs`.
* A directory is a list of links (name, inode, regular-file flag); the rename
  pass of `thread_func` is a fold of the per-entry step over the recorded names.

Byte values used below: `'.'` = 46, `'/'` = 47, `'_'` = 95, `' '` = 32,
`'-'` = 45, `'A'..'Z'` = 65..90, `'a'..'z'` = 97..122, `'0'..'9'` = 48..57.
-/

namespace SanitizeFs

/-! ## Definitions -/

/-! ### NameSanitizer: `replace_chars` -/

/-- Bytes of an ASCII string literal, used to write concrete names. -/
def cstr (s : String) : List Nat := s.toList.map Char.toNat

/-- Offset of the last occurrence of the byte `c` (not NUL) in the string `s`, as
`strrchr(s, c)` returns it (`none` for the NULL pointer). -/
def strrchr : List Nat → Nat → Option Nat
  | [], _ => none
  | b :: rest, c =>
    match strrchr rest c with
    | some i => some (i + 1)
    | none => if b = c then some 0 else none

/-- The C string held in a buffer: the bytes before the first NUL. -/
def c_str : List Nat → List Nat
  | [] => []
  | b :: rest => if b = 0 then [] else b :: c_str rest

/-- First loop of `replace_chars` (lines 50-62) on the buffer `buf`, with the
pointers `src`, `dst`, `ext` as offsets from `str`. Returns the buffer and `dst`.
Each iteration uses one unit of `fuel`. -/
def loop_scan (ext : Option Nat) : Nat → List Nat → Nat → Nat → List Nat × Nat
  | 0, buf, _, dst => (buf, dst)
  | fuel + 1, buf, src, dst =>
    let c := buf.getD src 0
    if c ≠ 0 ∧ some src ≠ ext then
      if 65 ≤ c ∧ c ≤ 90 then
        loop_scan ext fuel (buf.set dst (c + (97 - 65))) (src + 1) (dst + 1)
      else if (97 ≤ c ∧ c ≤ 122) ∨ (48 ≤ c ∧ c ≤ 57) then
        loop_scan ext fuel (buf.set dst c) (src + 1) (dst + 1)
      else if c = 95 ∨ c = 32 ∨ c = 45 ∨ c = 46 then
        if dst = 0 ∨ buf.getD (dst - 1) 0 ≠ 95 then
          loop_scan ext fuel (buf.set dst 95) (src + 1) (dst + 1)
        else loop_scan ext fuel buf (src + 1) dst
      else loop_scan ext fuel buf (src + 1) dst
    else (buf, dst)

/-- Second loop of `replace_chars` (lines 68-70), entered when `ext` is not NULL:
copy the bytes from `ext` up to the NUL to `dst`. Returns the buffer and `dst`. -/
def loop_ext : Nat → List Nat → Nat → Nat → List Nat × Nat
  | 0, buf, _, dst => (buf, dst)
  | fuel + 1, buf, ext, dst =>
    if buf.getD ext 0 ≠ 0 then
      loop_ext fuel (buf.set dst (buf.getD ext 0)) (ext + 1) (dst + 1)
    else (buf, dst)

/-- The buffer after `memmove(buf + dest, buf + src, n)`. -/
def memmove (buf : List Nat) (dest src n : Nat) : List Nat :=
  buf.take dest ++ (buf.drop src).take n ++ buf.drop (dest + n)

/-- The buffer after `replace_chars(str, preserve_ext)` (lines 45-79), where `buf` holds
the bytes from `str` on; each loop may run `fuel` iterations. -/
def replace_chars_fuel (fuel : Nat) (buf : List Nat) (preserve_ext : Bool) : List Nat :=
  let ext : Option Nat := if preserve_ext then strrchr (c_str buf) 46 else none
  let s1 := loop_scan ext fuel buf 0 0
  let dst := if s1.2 > 0 ∧ s1.1.getD (s1.2 - 1) 0 = 95 then s1.2 - 1 else s1.2
  let s2 := match ext with
    | some e => loop_ext fuel s1.1 e dst
    | none => (s1.1, dst)
  let buf := s2.1.set s2.2 0
  if buf.getD 0 0 = 95 then
    let len := s2.2
    (memmove buf 0 1 len).set (len - 1) 0
  else buf

/-- The buffer after `replace_chars(str, preserve_ext)`: no loop runs more often than
the buffer has bytes. -/
def replace_chars (buf : List Nat) (preserve_ext : Bool) : List Nat :=
  replace_chars_fuel buf.length buf preserve_ext

/-- The sanitized name: `name` is placed in a buffer with its NUL, `replace_chars` run
on it, and the string read back. -/
def sanitize (name : List Nat) (preserve_ext : Bool) : List Nat :=
  c_str (replace_chars (name ++ [0]) preserve_ext)

/-- The extension of `name`: the bytes from its last `'.'` on when `preserve_ext` is set
and a `'.'` exists, nothing otherwise. -/
def extension (name : List Nat) (preserve_ext : Bool) : List Nat :=
  if preserve_ext then
    match strrchr name 46 with
    | some i => name.drop i
    | none => []
  else []

/-- The portion of `name` before its extension. -/
def stem (name : List Nat) (preserve_ext : Bool) : List Nat :=
  name.take (name.length - (extension name preserve_ext).length)

/-! ### TreeCollector: `process_entry`, `dfs` -/

def MAX_PATH : Nat := 4096

def DT_DIR : Nat := 4

def DT_REG : Nat := 8

/-- The C struct `Entry`: recorded path and depth. -/
structure Entry where
  path : List Nat
  depth : Int
deriving DecidableEq, Repr

/-- The globals `entries` (with `num_entries` as its length) and `max_depth`. -/
structure Globals where
  entries : List Entry
  max_depth : Int
deriving DecidableEq, Repr

def Globals.num_entries (g : Globals) : Nat := g.entries.length

/-- Initial values of the globals: `entries = NULL`, `num_entries = 0`, `max_depth = 0`. -/
def Globals.init : Globals := { entries := [], max_depth := 0 }

/-- The string `strlcpy(dst, src, size)` leaves in `dst`. -/
def strlcpy (src : List Nat) (size : Nat) : List Nat := src.take (size - 1)

/-- Body of `process_entry` (lines 81-90): append the entry, raise `max_depth`. -/
def process_entry (g : Globals) (fpath : List Nat) (depth : Int) : Globals :=
  { entries := g.entries ++ [{ path := strlcpy fpath MAX_PATH, depth := depth }],
    max_depth := if depth > g.max_depth then depth else g.max_depth }

/-- Entries recorded by a sequence of `process_entry` calls from the initial globals. -/
def record_all (ops : List (List Nat × Int)) : Globals :=
  ops.foldl (fun g op => process_entry g op.1 op.2) Globals.init

/-- One `struct dirent` returned by `readdir`, together with the listing that
`opendir`/`readdir` yield for the subpath `dfs` builds for it (read only when
`d_type` is `DT_DIR`). -/
inductive Dirent where
  | mk (d_name : List Nat) (d_type : Nat) (sub : List Dirent)

/-- The string `snprintf(subpath, size, "%s/%s", path, d_name)` leaves in `subpath`. -/
def snprintf_path (size : Nat) (path d_name : List Nat) : List Nat :=
  (path ++ 47 :: d_name).take (size - 1)

mutual
/-- The `readdir` loop of `dfs(path, depth)` (lines 92-114) over the entries that
`readdir` returns for `path`, in their order; `opendir` is taken to succeed. -/
def dfs (g : Globals) (path : List Nat) (depth : Int) : List Dirent → Globals
  | [] => g
  | entry :: rest => dfs (dfs_entry g path depth entry) path depth rest
/-- Body of the `readdir` loop for one entry (lines 97-110). The test of line 99 is
subsumed by the one of line 97. -/
def dfs_entry (g : Globals) (path : List Nat) (depth : Int) : Dirent → Globals
  | .mk d_name d_type sub =>
    if d_name.head? = some 46 then g
    else
      let subpath := snprintf_path MAX_PATH path d_name
      if d_type = DT_DIR then dfs (process_entry g subpath depth) subpath (depth + 1) sub
      else if d_type = DT_REG then process_entry g subpath depth
      else g
end

mutual
/-- No `d_name` in the listing contains `'/'`, as for every name `readdir` returns. -/
def listing_ok : List Dirent → Bool
  | [] => true
  | entry :: rest => dirent_ok entry && listing_ok rest
/-- The name of the entry has no `'/'`, and so throughout its listing. -/
def dirent_ok : Dirent → Bool
  | .mk d_name _ sub => decide (47 ∉ d_name) && listing_ok sub
end

/-- A small tree: a directory with a file and a hidden directory, and a hidden file. -/
def sampleTree : List Dirent :=
  [.mk (cstr "My Dir") DT_DIR
      [.mk (cstr "a.txt") DT_REG [], .mk (cstr ".git") DT_DIR [.mk (cstr "config") DT_REG []]],
   .mk (cstr ".hidden") DT_REG []]

/-- The path `root/c₁/…/cₙ` for `comps = [c₁, …, cₙ]`, cut to the size of the
`MAX_PATH` buffers. -/
def path_below (root : List Nat) (comps : List (List Nat)) : List Nat :=
  (root ++ (comps.map fun c => 47 :: c).flatten).take (MAX_PATH - 1)

/-! ### RenameScheduler: `thread_func` -/

/-- The value `start_index` of `thread_func` (lines 124-125). -/
def start_index (num_entries num_threads thread_id : Nat) : Nat :=
  thread_id * (num_entries / num_threads)

/-- The value `end_index` of `thread_func` (line 126). -/
def end_index (num_entries num_threads thread_id : Nat) : Nat :=
  if thread_id = num_threads - 1 then num_entries
  else (thread_id + 1) * (num_entries / num_threads)

/-- Values taken by the loop variable of
`for (int depth = max_depth; depth >= 0; depth--)`, in order. -/
def depth_levels (max_depth : Int) : List Int :=
  ((List.range (max_depth + 1).toNat).reverse).map Int.ofNat

/-- The pairs (depth iteration, entry index) for which worker `thread_id` runs the
body of `if (entries[i].depth == depth)` (lines 128-130), in program order. -/
def thread_visits (g : Globals) (num_threads thread_id : Nat) : List (Int × Nat) :=
  let start := start_index g.num_entries num_threads thread_id
  let stop := end_index g.num_entries num_threads thread_id
  (depth_levels g.max_depth).flatMap fun depth =>
    ((List.range' start (stop - start)).filter
      (fun i => (g.entries.get? i).map Entry.depth = some depth)).map fun i => (depth, i)

/-- One name in a directory: the name, the inode it refers to, and whether
`S_ISREG` holds for it. -/
structure Link where
  name : List Nat
  ino : Nat
  is_reg : Bool
deriving DecidableEq, Repr

/-- Modelled from the spec: `fstatat(dirfd, name, …, AT_SYMLINK_NOFOLLOW)` is a system
call; it is taken to find the link called `name` in the directory, and to fail
(`none`) when there is none. -/
def fstatat (dir : List Link) (name : List Nat) : Option Link :=
  dir.find? fun l => l.name = name

/-- Modelled from the spec: `renameat2(dirfd, old, dirfd, new, RENAME_NOREPLACE)` is a
system call. "No-replace rename: a rename that fails (leaving the source unchanged)
if an entry with the target name already exists." The empty name, `.` and `..`
are never valid targets. Otherwise the link called `oldname` is given the name
`newname`; the directory is taken to be writable. -/
def renameat2_noreplace (dir : List Link) (oldname newname : List Nat) : List Link :=
  if newname = [] ∨ newname = [46] ∨ newname = [46, 46] ∨ newname ∈ dir.map Link.name then dir
  else dir.map fun l => if l.name = oldname then { l with name := newname } else l

/-- The name computed on lines 150-152: the base name copied into the buffer
`new_name` and sanitized there. -/
def new_name (name : List Nat) (is_reg : Bool) : List Nat :=
  sanitize (strlcpy name MAX_PATH) is_reg

/-- Per-entry body of `thread_func` (lines 131-162) on the parent directory `dir` of
the entry and its base name `name`: stat the name (skip on failure), sanitize it,
and rename unless `dry_run`. The parent was listed by `dfs`, so opening it with
`O_PATH` is taken to succeed. -/
def rename_entry (dry_run : Bool) (dir : List Link) (name : List Nat) : List Link :=
  match fstatat dir name with
  | none => dir
  | some st =>
    if !dry_run then renameat2_noreplace dir name (new_name name st.is_reg) else dir

/-- The per-entry step run over the recorded names of one directory, in the order
given. -/
def rename_pass (dry_run : Bool) (dir : List Link) (names : List (List Nat)) : List Link :=
  names.foldl (rename_entry dry_run) dir

/-- A directory in which the sanitized name of one regular file is the name of
another. -/
def collisionDir : List Link :=
  [⟨cstr "A B.txt", 11, true⟩, ⟨cstr "a_b.txt", 12, true⟩]

/-- A directory with two regular files that sanitize to the same free name. -/
def siblingDir : List Link :=
  [⟨cstr "A B.txt", 11, true⟩, ⟨cstr "A-B.txt", 12, true⟩]

/-! ### RootFinalizer: the last loop of `main` -/

/-- Modelled from the spec: libc `basename`, on the canonical absolute paths `realpath`
returns (no trailing slash except for the root itself). -/
def basename (path : List Nat) : List Nat :=
  match strrchr path 47 with
  | some i => if path.drop (i + 1) = [] then [47] else path.drop (i + 1)
  | none => path

/-- Modelled from the spec: libc `dirname`, on the canonical absolute paths `realpath`
returns. -/
def dirname (path : List Nat) : List Nat :=
  match strrchr path 47 with
  | some i => if i = 0 then [47] else path.take i
  | none => [46]

/-- Modelled from the spec: resolution of a path given with `AT_FDCWD`: an absolute
path stands for itself, a relative one is taken below the working directory. -/
def resolve_at_cwd (cwd path : List Nat) : List Nat :=
  if path.head? = some 47 then path else cwd ++ 47 :: path

/-- The rename requested for one root argument by the last loop of `main`
(lines 249-261), as the pair (source, destination) of resolved paths of
`renameat2(AT_FDCWD, absolute_path, AT_FDCWD, new_name, RENAME_NOREPLACE)`;
`none` when no rename is requested. -/
def root_rename (dry_run : Bool) (cwd absolute_path : List Nat) (is_reg : Bool) :
    Option (List Nat × List Nat) :=
  let name := basename absolute_path
  let new_name := sanitize name is_reg
  if name ≠ new_name then
    if !dry_run then some (resolve_at_cwd cwd absolute_path, resolve_at_cwd cwd new_name)
    else none
  else none

/-- Destination of an in-place rename of the root: its parent directory joined with
the sanitized base name. -/
def in_place_target (absolute_path : List Nat) (is_reg : Bool) : List Nat :=
  dirname absolute_path ++ 47 :: sanitize (basename absolute_path) is_reg

/-! ### Predicates used in the proofs -/

/-- Bytes of the safe alphabet `[a-z0-9_]`. -/
def SafeByte (c : Nat) : Prop := (97 ≤ c ∧ c ≤ 122) ∨ (48 ≤ c ∧ c ≤ 57) ∨ c = 95

/-- ASCII letters and digits. -/
def AlnumByte (c : Nat) : Prop := (65 ≤ c ∧ c ≤ 90) ∨ (97 ≤ c ∧ c ≤ 122) ∨ (48 ≤ c ∧ c ≤ 57)

/-- No two adjacent underscores. -/
def NoDouble (l : List Nat) : Prop := List.Chain' (fun a b => ¬ (a = 95 ∧ b = 95)) l

/-- Safe alphabet and no two adjacent underscores. -/
def Clean (l : List Nat) : Prop := (∀ c ∈ l, SafeByte c) ∧ NoDouble l

/-- Clean, with no underscore at either end. -/
def Tidy (p : List Nat) : Prop := Clean p ∧ p.head? ≠ some 95 ∧ p.getLast? ≠ some 95

/-- String-level description of the first loop of `replace_chars`: `src` holds the
bytes still to be read before `ext`, `out` the bytes `str[0 .. dst)` written so far. -/
def scan : List Nat → List Nat → List Nat
  | [], out => out
  | c :: src, out =>
    if 65 ≤ c ∧ c ≤ 90 then scan src (out ++ [c + (97 - 65)])
    else if (97 ≤ c ∧ c ≤ 122) ∨ (48 ≤ c ∧ c ≤ 57) then scan src (out ++ [c])
    else if c = 95 ∨ c = 32 ∨ c = 45 ∨ c = 46 then
      if out = [] ∨ out.getLast? ≠ some 95 then scan src (out ++ [95]) else scan src out
    else scan src out

/-- String-level description of `replace_chars`: scan up to `ext`, drop one trailing
underscore, append the bytes from `ext` on, drop one leading underscore. Shown
below to be the string the in-place run leaves in the buffer. -/
def replace_chars_pure (str : List Nat) (preserve_ext : Bool) : List Nat :=
  let ext : Option Nat := if preserve_ext then strrchr str 46 else none
  let stem := match ext with
    | some i => str.take i
    | none => str
  let out := scan stem []
  let out := if out ≠ [] ∧ out.getLast? = some 95 then out.dropLast else out
  let out := match ext with
    | some i => out ++ str.drop i
    | none => out
  if out.head? = some 95 then out.tail else out

/-- Transformed stem once the trailing underscore is dropped (lines 50-66). -/
def core (s : List Nat) : List Nat :=
  if scan s [] ≠ [] ∧ (scan s []).getLast? = some 95 then (scan s []).dropLast else scan s []

/-- Removal of one leading underscore (lines 74-78). -/
def lead (l : List Nat) : List Nat := if l.head? = some 95 then l.tail else l

/-- What `dfs` knows of its `path` argument: up to the buffer cut it is `root`
followed by visible components. -/
def PathInv (root path : List Nat) (comps : List (List Nat)) : Prop :=
  (∀ c ∈ comps, c.head? ≠ some 46 ∧ 47 ∉ c) ∧
  ∀ x, (path ++ x).take (MAX_PATH - 1) =
    (root ++ (comps.map fun c => 47 :: c).flatten ++ x).take (MAX_PATH - 1)

/-- A recorded entry lies below `root` along visible components, at the depth that
counts them. -/
def Recorded (root : List Nat) (e : Entry) : Prop :=
  ∃ comps : List (List Nat), comps ≠ [] ∧ (∀ c ∈ comps, c.head? ≠ some 46 ∧ 47 ∉ c) ∧
    e.path = path_below root comps ∧ e.depth + 1 = comps.length

/-! ## Theorems -/

/-! ### NameSanitizer -/

/-! ### strrchr -/

theorem strrchr_none {s : List Nat} {c : Nat} : strrchr s c = none ↔ c ∉ s := by
  induction s with
  | nil => simp [strrchr]
  | cons b rest ih =>
    simp only [strrchr]
    cases h : strrchr rest c with
    | some i =>
      have : ¬ (c ∉ rest) := fun hn => by rw [ih.mpr hn] at h; cases h
      simp at this
      simp [this]
    | none =>
      have hn := ih.mp h
      by_cases hb : b = c
      · simp [hb]
      · simp [hb, hn, Ne.symm hb]

theorem strrchr_some {s : List Nat} {c i : Nat} (h : strrchr s c = some i) :
    ∃ suf, s = s.take i ++ c :: suf ∧ c ∉ suf ∧ s.drop i = c :: suf ∧ (s.take i).length = i := by
  induction s generalizing i with
  | nil => simp [strrchr] at h
  | cons b rest ih =>
    simp only [strrchr] at h
    cases hr : strrchr rest c with
    | some j =>
      rw [hr] at h
      simp at h
      subst h
      obtain ⟨suf, h1, h2, h3, h4⟩ := ih hr
      refine ⟨suf, ?_, h2, ?_, ?_⟩
      · simp only [List.take_succ_cons, List.cons_append]
        rw [← h1]
      · simpa using h3
      · simpa using h4
    | none =>
      rw [hr] at h
      by_cases hb : b = c
      · simp [hb] at h
        subst h
        exact ⟨rest, by simp [hb], strrchr_none.mp hr, by simp [hb], by simp⟩
      · simp [hb] at h

theorem strrchr_append_cons {pre suf : List Nat} {c : Nat} (h : c ∉ suf) :
    strrchr (pre ++ c :: suf) c = some pre.length := by
  induction pre with
  | nil => simp [strrchr, strrchr_none.mpr h]
  | cons b rest ih => simp [strrchr, ih]


/-! ### the scan loop -/

theorem clean_nil : Clean [] := ⟨by simp, List.chain'_nil⟩

theorem clean_snoc {out : List Nat} {x : Nat} (h : Clean out) (hx : SafeByte x)
    (hl : x = 95 → out.getLast? ≠ some 95) : Clean (out ++ [x]) := by
  refine ⟨?_, ?_⟩
  · intro c hc
    rcases List.mem_append.mp hc with hc | hc
    · exact h.1 c hc
    · simp at hc; subst hc; exact hx
  · unfold NoDouble
    rw [List.chain'_append]
    refine ⟨h.2, List.chain'_singleton _, ?_⟩
    intro a ha b hb
    simp at hb
    subst hb
    rintro ⟨rfl, h95⟩
    exact hl h95 (by simpa using ha)

theorem scan_clean (src : List Nat) : ∀ out, Clean out → Clean (scan src out) := by
  induction src with
  | nil => intro out h; simpa [scan] using h
  | cons c src ih =>
    intro out h
    simp only [scan]
    split_ifs with h1 h2 h3 h4
    · exact ih _ (clean_snoc h (Or.inl ⟨by omega, by omega⟩) (by omega))
    · refine ih _ (clean_snoc h ?_ ?_)
      · rcases h2 with h2 | h2
        · exact Or.inl h2
        · exact Or.inr (Or.inl h2)
      · omega
    · refine ih _ (clean_snoc h (Or.inr (Or.inr rfl)) ?_)
      intro _
      rcases h4 with h4 | h4
      · simp [h4]
      · exact h4
    · exact ih _ h
    · exact ih _ h

/-- On an already clean string the scan copies every byte. -/
theorem scan_fix (p : List Nat) : ∀ out, Clean p →
    (p.head? = some 95 → out.getLast? ≠ some 95) → scan p out = out ++ p := by
  induction p with
  | nil => intro out _ _; simp [scan]
  | cons c p ih =>
    intro out hp hh
    have hc : SafeByte c := hp.1 c (by simp)
    have hp' : Clean p := ⟨fun x hx => hp.1 x (by simp [hx]), List.Chain'.tail hp.2⟩
    simp only [scan]
    split_ifs with h1 h2 h3 h4
    · unfold SafeByte at hc; omega
    · rw [ih _ hp']
      · simp
      · intro _; simp; omega
    · have hc95 : c = 95 := by unfold SafeByte at hc; omega
      subst hc95
      rw [ih _ hp']
      · simp
      · intro hh'
        exfalso
        have := hp.2
        unfold NoDouble at this
        cases p with
        | nil => simp at hh'
        | cons d p =>
          simp at hh'
          subst hh'
          rw [List.chain'_cons] at this
          exact this.1 ⟨rfl, rfl⟩
    · have hc95 : c = 95 := by unfold SafeByte at hc; omega
      subst hc95
      exfalso
      apply h4
      right
      exact hh (by simp)
    · unfold SafeByte at hc; omega

/-- With no letter or digit in the input, the scan writes at most underscores. -/
theorem scan_noalnum (src : List Nat) (h : ∀ c ∈ src, ¬ AlnumByte c) :
    scan src [] = [] ∨ scan src [] = [95] := by
  have key : ∀ (s : List Nat), (∀ c ∈ s, ¬ AlnumByte c) →
      ∀ out, (out = [] ∨ out = [95]) → (scan s out = [] ∨ scan s out = [95]) := by
    intro s
    induction s with
    | nil => intro _ out ho; simpa [scan] using ho
    | cons c s ih =>
      intro hs out ho
      have hc : ¬ AlnumByte c := hs c (by simp)
      have hs' : ∀ x ∈ s, ¬ AlnumByte x := fun x hx => hs x (by simp [hx])
      simp only [scan]
      split_ifs with h1 h2 h3 h4
      · exact absurd (Or.inl h1) hc
      · exfalso; apply hc; unfold AlnumByte; omega
      · rcases ho with ho | ho
        · subst ho; exact ih hs' _ (Or.inr rfl)
        · subst ho; simp at h4
      · exact ih hs' _ ho
      · exact ih hs' _ ho
  exact key src h [] (Or.inl rfl)


/-! ### normal form of `replace_chars_pure` -/

theorem rc_ext {pre suf : List Nat} (h : 46 ∉ suf) :
    replace_chars_pure (pre ++ 46 :: suf) true = lead (core pre ++ 46 :: suf) := by
  simp [replace_chars_pure, strrchr_append_cons h, core, lead]

theorem rc_noext {n : List Nat} {e : Bool} (h : e = false ∨ 46 ∉ n) :
    replace_chars_pure n e = lead (core n) := by
  have : (if e = true then strrchr n 46 else none) = none := by
    rcases h with h | h
    · simp [h]
    · simp [strrchr_none.mpr h]
  simp [replace_chars_pure, this, core, lead]

theorem clean_of_snoc {l : List Nat} {x : Nat} (h : Clean (l ++ [x])) : Clean l := by
  refine ⟨fun c hc => h.1 c (by simp [hc]), ?_⟩
  have := h.2
  unfold NoDouble at this ⊢
  rw [List.chain'_append] at this
  exact this.1

theorem core_clean (s : List Nat) : Clean (core s) ∧ (core s).getLast? ≠ some 95 := by
  have hc : Clean (scan s []) := scan_clean s [] clean_nil
  unfold core
  split_ifs with h
  · obtain ⟨hne, hl⟩ := h
    obtain ⟨l, x, hx⟩ : ∃ l x, scan s [] = l ++ [x] :=
      ⟨_, _, (List.dropLast_append_getLast hne).symm⟩
    rw [hx] at hl hc ⊢
    simp at hl
    subst hl
    simp only [List.dropLast_concat]
    refine ⟨clean_of_snoc hc, ?_⟩
    intro hl
    have := hc.2
    unfold NoDouble at this
    rw [List.chain'_append] at this
    exact this.2.2 95 (by simpa using hl) 95 (by simp) ⟨rfl, rfl⟩
  · refine ⟨hc, ?_⟩
    intro hl
    apply h
    refine ⟨?_, hl⟩
    intro hnil
    rw [hnil] at hl
    simp at hl

theorem lead_core (s : List Nat) :
    ∃ p, Tidy p ∧ ∀ ext : List Nat, ext.head? ≠ some 95 → lead (core s ++ ext) = p ++ ext := by
  obtain ⟨hc, hl⟩ := core_clean s
  cases hcs : core s with
  | nil =>
    refine ⟨[], ⟨clean_nil, by simp, by simp⟩, ?_⟩
    intro ext he
    simp [lead, he]
  | cons x c =>
    rw [hcs] at hc hl
    by_cases hx : x = 95
    · subst hx
      have hcne : c ≠ [] := by
        intro h0
        subst h0
        simp at hl
      refine ⟨c, ⟨⟨fun y hy => hc.1 y (by simp [hy]), List.Chain'.tail hc.2⟩, ?_, ?_⟩, ?_⟩
      · intro hh
        have := hc.2
        unfold NoDouble at this
        cases c with
        | nil => simp at hh
        | cons d c =>
          simp at hh
          subst hh
          rw [List.chain'_cons] at this
          exact this.1 ⟨rfl, rfl⟩
      · cases c with
        | nil => exact absurd rfl hcne
        | cons d c => simpa [List.getLast?_cons_cons] using hl
      · intro ext _
        simp [lead]
    · refine ⟨x :: c, ⟨hc, by simpa using hx, hl⟩, ?_⟩
      intro ext _
      simp [lead, hx]

theorem core_tidy {p : List Nat} (h : Tidy p) : core p = p := by
  have hs : scan p [] = p := by
    have := scan_fix p [] h.1 (by simp)
    simpa using this
  unfold core
  rw [hs]
  simp [h.2.2]

theorem lead_tidy_append {p : List Nat} (h : Tidy p) {ext : List Nat}
    (he : ext.head? ≠ some 95) : lead (p ++ ext) = p ++ ext := by
  unfold lead
  have : (p ++ ext).head? ≠ some 95 := by
    cases p with
    | nil => simpa using he
    | cons x p => simpa using h.2.1
  rw [if_neg this]

theorem tidy_no_dot {p : List Nat} (h : Tidy p) : 46 ∉ p := by
  intro hm
  have := h.1.1 46 hm
  unfold SafeByte at this
  omega

/-- Every name either has an extension split or none. -/
theorem ext_cases (n : List Nat) (e : Bool) :
    (e = true ∧ ∃ pre suf, n = pre ++ 46 :: suf ∧ 46 ∉ suf) ∨ (e = false ∨ 46 ∉ n) := by
  cases e with
  | false => right; left; rfl
  | true =>
    cases h : strrchr n 46 with
    | none => right; right; exact strrchr_none.mp h
    | some i =>
      obtain ⟨suf, h1, h2, _, _⟩ := strrchr_some h
      left
      exact ⟨rfl, n.take i, suf, h1, h2⟩

/-- The string-level description is idempotent. -/
theorem pure_idem (n : List Nat) (e : Bool) :
    replace_chars_pure (replace_chars_pure n e) e = replace_chars_pure n e := by
  rcases ext_cases n e with ⟨he, pre, suf, hn, hs⟩ | h
  · subst he
    subst hn
    obtain ⟨p, hp, hpe⟩ := lead_core pre
    rw [rc_ext hs, hpe (46 :: suf) (by simp), rc_ext hs, core_tidy hp]
    exact lead_tidy_append hp (by simp)
  · obtain ⟨p, hp, hpe⟩ := lead_core n
    have h1 : replace_chars_pure n e = p := by
      rw [rc_noext h]
      simpa using hpe [] (by simp)
    rw [h1, rc_noext (Or.inr (tidy_no_dot hp) : e = false ∨ 46 ∉ p), core_tidy hp]
    simpa using lead_tidy_append hp (by simp : ([] : List Nat).head? ≠ some 95)


theorem extension_ext {pre suf : List Nat} (h : 46 ∉ suf) :
    extension (pre ++ 46 :: suf) true = 46 :: suf ∧ stem (pre ++ 46 :: suf) true = pre := by
  have he : extension (pre ++ 46 :: suf) true = 46 :: suf := by
    simp [extension, strrchr_append_cons h]
  refine ⟨he, ?_⟩
  unfold stem
  rw [he]
  simp

theorem extension_noext {n : List Nat} {e : Bool} (h : e = false ∨ 46 ∉ n) :
    extension n e = [] ∧ stem n e = n := by
  have he : extension n e = [] := by
    rcases h with h | h
    · simp [extension, h]
    · simp [extension, strrchr_none.mpr h]
  refine ⟨he, ?_⟩
  unfold stem
  rw [he]
  simp

theorem core_noalnum {s : List Nat} (h : ∀ c ∈ s, ¬ AlnumByte c) : core s = [] := by
  unfold core
  rcases scan_noalnum s h with h0 | h1
  · simp [h0]
  · simp [h1]

theorem noDouble_no_pair {p : List Nat} (h : NoDouble p) : ¬ [95, 95] <:+: p := by
  rintro ⟨s, t, rfl⟩
  unfold NoDouble at h
  rw [List.chain'_append, List.chain'_append] at h
  have := h.1.2.1
  rw [List.chain'_cons] at this
  exact this.1 ⟨rfl, rfl⟩

/-- The string-level result is a tidy part over the safe alphabet followed by the
extension. -/
theorem pure_stem_safe (n : List Nat) (e : Bool) :
    ∃ p, replace_chars_pure n e = p ++ extension n e ∧
      (∀ c ∈ p, (97 ≤ c ∧ c ≤ 122) ∨ (48 ≤ c ∧ c ≤ 57) ∨ c = 95) ∧
      p.head? ≠ some 95 ∧ ¬ [95, 95] <:+: p := by
  rcases ext_cases n e with ⟨he, pre, suf, hn, hs⟩ | h
  · subst he
    subst hn
    obtain ⟨p, hp, hpe⟩ := lead_core pre
    refine ⟨p, ?_, hp.1.1, hp.2.1, noDouble_no_pair hp.1.2⟩
    rw [rc_ext hs, hpe (46 :: suf) (by simp), (extension_ext hs).1]
  · obtain ⟨p, hp, hpe⟩ := lead_core n
    refine ⟨p, ?_, hp.1.1, hp.2.1, noDouble_no_pair hp.1.2⟩
    rw [rc_noext h, (extension_noext h).1]
    simpa using hpe [] (by simp)

/-- The string-level result ends with the bytes from the last dot on. -/
theorem pure_keeps_extension (n pre suf : List Nat)
    (hn : n = pre ++ 46 :: suf) (hs : 46 ∉ suf) :
    (46 :: suf) <:+ replace_chars_pure n true := by
  subst hn
  obtain ⟨p, _, hpe⟩ := lead_core pre
  rw [rc_ext hs, hpe (46 :: suf) (by simp)]
  exact List.suffix_append _ _

/-- Without letter or digit before the extension, the string-level result is the
extension. -/
theorem pure_no_alnum (n : List Nat) (e : Bool)
    (h : ∀ c ∈ stem n e,
      ¬ ((65 ≤ c ∧ c ≤ 90) ∨ (97 ≤ c ∧ c ≤ 122) ∨ (48 ≤ c ∧ c ≤ 57))) :
    replace_chars_pure n e = extension n e ∧
      ((e = false ∨ 46 ∉ n) → replace_chars_pure n e = []) ∧
      ((e = true ∧ 46 ∈ n) → (replace_chars_pure n e).head? = some 46) := by
  rcases ext_cases n e with ⟨he, pre, suf, hn, hs⟩ | hne
  · subst he
    subst hn
    rw [(extension_ext hs).2] at h
    have hr : replace_chars_pure (pre ++ 46 :: suf) true = 46 :: suf := by
      rw [rc_ext hs, core_noalnum h]
      simp [lead]
    refine ⟨by rw [hr, (extension_ext hs).1], ?_, ?_⟩
    · intro h'
      rcases h' with h' | h'
      · cases h'
      · exact absurd (by simp) h'
    · intro _
      rw [hr]
      rfl
  · rw [(extension_noext hne).2] at h
    have hr : replace_chars_pure n e = [] := by
      rw [rc_noext hne, core_noalnum h]
      simp [lead]
    refine ⟨by rw [hr, (extension_noext hne).1], fun _ => hr, ?_⟩
    rintro ⟨he, hm⟩
    rcases hne with h' | h'
    · rw [he] at h'; cases h'
    · exact absurd hm h'

/-! ### the in-place run -/

theorem getD_mid (a b : List Nat) (c d : Nat) : (a ++ c :: b).getD a.length d = c := by
  induction a with
  | nil => rfl
  | cons x a ih => simpa using ih

theorem set_mid (a b : List Nat) (c v : Nat) : (a ++ c :: b).set a.length v = a ++ v :: b := by
  induction a with
  | nil => rfl
  | cons x a ih => simp [ih]

theorem getD_end (a b : List Nat) (d : Nat) : (a ++ b).getD a.length d = b.getD 0 d := by
  cases b with
  | nil => simp [List.getD_eq_getElem?_getD]
  | cons c b => rw [getD_mid]; rfl

theorem last_test (out rest : List Nat) :
    (out.length = 0 ∨ (out ++ rest).getD (out.length - 1) 0 ≠ 95) ↔
      (out = [] ∨ out.getLast? ≠ some 95) := by
  rcases List.eq_nil_or_concat out with h | ⟨l, x, h⟩
  · subst h; simp
  · subst h
    rw [List.concat_eq_append]
    have h1 : (l ++ [x] ++ rest).getD ((l ++ [x]).length - 1) 0 = x := by
      have : (l ++ [x]).length - 1 = l.length := by simp
      rw [this, List.append_assoc]
      exact getD_mid _ _ _ _
    rw [h1]
    simp

theorem write_shape (out mid r tail : List Nat) (c v : Nat) :
    (out ++ mid ++ c :: r ++ tail).set out.length v =
      (out ++ [v]) ++ (mid ++ [c]).tail ++ r ++ tail ∧
    (out ++ [v]).length + (mid ++ [c]).tail.length = out.length + mid.length + 1 := by
  cases mid with
  | nil =>
    refine ⟨?_, by simp⟩
    simp
  | cons m ms =>
    refine ⟨?_, by simp; omega⟩
    simp

theorem read_shape (out mid r tail : List Nat) (c : Nat) :
    (out ++ mid ++ c :: r ++ tail).getD (out.length + mid.length) 0 = c := by
  have := getD_mid (out ++ mid) (r ++ tail) c 0
  simpa using this

theorem loop_scan_spec (ext : Option Nat) : ∀ (r : List Nat) (fuel : Nat) (out mid tail : List Nat),
    r.length ≤ fuel → (∀ c ∈ r, c ≠ 0) →
    (∀ k, k < r.length → ext ≠ some (out.length + mid.length + k)) →
    (tail.getD 0 0 = 0 ∨ ext = some (out.length + mid.length + r.length)) →
    ∃ mid', loop_scan ext fuel (out ++ mid ++ r ++ tail) (out.length + mid.length) out.length =
        (scan r out ++ mid' ++ tail, (scan r out).length) ∧
      (scan r out).length + mid'.length = out.length + mid.length + r.length := by
  intro r
  induction r with
  | nil =>
    intro fuel out mid tail _ _ _ hstop
    refine ⟨mid, ?_, by simp [scan]⟩
    cases fuel with
    | zero => simp [loop_scan, scan]
    | succ f =>
      have hread : (out ++ mid ++ [] ++ tail).getD (out.length + mid.length) 0 = tail.getD 0 0 := by
        have := getD_end (out ++ mid) tail 0
        simpa using this
      have hcond : ¬ (tail.getD 0 0 ≠ 0 ∧ some (out.length + mid.length) ≠ ext) := by
        rintro ⟨h1, h2⟩
        rcases hstop with h | h
        · exact h1 h
        · exact h2 (by simpa using h.symm)
      simp only [loop_scan, hread, scan]
      rw [if_neg hcond]
      simp
  | cons c r ih =>
    intro fuel out mid tail hfuel hnz hext hstop
    cases fuel with
    | zero => simp at hfuel
    | succ f =>
      have hf : r.length ≤ f := by simpa using hfuel
      have hc0 : c ≠ 0 := hnz c (by simp)
      have hnz' : ∀ x ∈ r, x ≠ 0 := fun x hx => hnz x (by simp [hx])
      have hread := read_shape out mid r tail c
      have hext0 : some (out.length + mid.length) ≠ ext := by
        have := hext 0 (by simp)
        simpa using this.symm
      have happ : out ++ mid ++ (c :: r) ++ tail = out ++ mid ++ c :: r ++ tail := by simp
      -- continuation after a byte `v` is written
      have hwrite : ∀ v, ∃ mid', loop_scan ext f ((out ++ mid ++ c :: r ++ tail).set out.length v)
            (out.length + mid.length + 1) (out.length + 1) =
          (scan r (out ++ [v]) ++ mid' ++ tail, (scan r (out ++ [v])).length) ∧
          (scan r (out ++ [v])).length + mid'.length = out.length + mid.length + (r.length + 1) := by
        intro v
        obtain ⟨hs, hl⟩ := write_shape out mid r tail c v
        have hl' : out.length + mid.length + 1 = (out ++ [v]).length + (mid ++ [c]).tail.length :=
          hl.symm
        have := ih f (out ++ [v]) (mid ++ [c]).tail tail hf hnz'
          (by
            intro k hk
            rw [hl]
            have := hext (k + 1) (by simp; omega)
            intro h; apply this; rw [h]; congr 1; omega)
          (by
            rcases hstop with h | h
            · exact Or.inl h
            · right; rw [h, hl]; congr 1; simp; omega)
        obtain ⟨mid', h1, h2⟩ := this
        refine ⟨mid', ?_, by rw [h2, hl]; omega⟩
        rw [hs, hl']
        have hlen : out.length + 1 = (out ++ [v]).length := by simp
        rw [hlen]
        exact h1
      -- continuation when nothing is written
      have hskip : ∃ mid', loop_scan ext f (out ++ mid ++ c :: r ++ tail)
            (out.length + mid.length + 1) out.length =
          (scan r out ++ mid' ++ tail, (scan r out).length) ∧
          (scan r out).length + mid'.length = out.length + mid.length + (r.length + 1) := by
        have := ih f out (mid ++ [c]) tail hf hnz'
          (by
            intro k hk
            have := hext (k + 1) (by simp; omega)
            intro h; apply this; rw [h]; congr 1; simp; omega)
          (by
            rcases hstop with h | h
            · exact Or.inl h
            · right; rw [h]; congr 1; simp; omega)
        obtain ⟨mid', h1, h2⟩ := this
        refine ⟨mid', ?_, by rw [h2]; simp; omega⟩
        have e1 : out ++ (mid ++ [c]) ++ r ++ tail = out ++ mid ++ c :: r ++ tail := by simp
        have e2 : out.length + (mid ++ [c]).length = out.length + mid.length + 1 := by simp; omega
        rw [e1, e2] at h1
        exact h1
      have htest := last_test out (mid ++ c :: r ++ tail)
      rw [← List.append_assoc, ← List.append_assoc] at htest
      rw [happ]
      simp only [loop_scan, hread, scan, List.length_cons]
      rw [if_pos ⟨hc0, hext0⟩]
      by_cases h1 : 65 ≤ c ∧ c ≤ 90
      · rw [if_pos h1, if_pos h1]; exact hwrite _
      · rw [if_neg h1, if_neg h1]
        by_cases h2 : (97 ≤ c ∧ c ≤ 122) ∨ (48 ≤ c ∧ c ≤ 57)
        · rw [if_pos h2, if_pos h2]; exact hwrite _
        · rw [if_neg h2, if_neg h2]
          by_cases h3 : c = 95 ∨ c = 32 ∨ c = 45 ∨ c = 46
          · rw [if_pos h3, if_pos h3]
            by_cases h4 : out = [] ∨ out.getLast? ≠ some 95
            · rw [if_pos (htest.mpr h4), if_pos h4]; exact hwrite _
            · rw [if_neg (fun h => h4 (htest.mp h)), if_neg h4]; exact hskip
          · rw [if_neg h3, if_neg h3]; exact hskip

theorem loop_ext_spec : ∀ (r : List Nat) (fuel : Nat) (o mid t : List Nat),
    r.length ≤ fuel → (∀ c ∈ r, c ≠ 0) → t.getD 0 0 = 0 →
    ∃ mid', loop_ext fuel (o ++ mid ++ r ++ t) (o.length + mid.length) o.length =
        (o ++ r ++ mid' ++ t, o.length + r.length) ∧ mid'.length = mid.length := by
  intro r
  induction r with
  | nil =>
    intro fuel o mid t _ _ ht
    refine ⟨mid, ?_, rfl⟩
    cases fuel with
    | zero => simp [loop_ext]
    | succ f =>
      have hread : (o ++ mid ++ [] ++ t).getD (o.length + mid.length) 0 = t.getD 0 0 := by
        have := getD_end (o ++ mid) t 0
        simpa using this
      simp only [loop_ext, hread, ht]
      simp
  | cons c r ih =>
    intro fuel o mid t hfuel hnz ht
    cases fuel with
    | zero => simp at hfuel
    | succ f =>
      have hf : r.length ≤ f := by simpa using hfuel
      have hc0 : c ≠ 0 := hnz c (by simp)
      have hnz' : ∀ x ∈ r, x ≠ 0 := fun x hx => hnz x (by simp [hx])
      have hread := read_shape o mid r t c
      have happ : o ++ mid ++ (c :: r) ++ t = o ++ mid ++ c :: r ++ t := by simp
      obtain ⟨hs, hl⟩ := write_shape o mid r t c c
      obtain ⟨mid', h1, h2⟩ := ih f (o ++ [c]) (mid ++ [c]).tail t hf hnz' ht
      refine ⟨mid', ?_, by rw [h2]; simp⟩
      rw [happ]
      simp only [loop_ext, hread]
      rw [if_pos hc0, hs]
      have e1 : o.length + mid.length + 1 = (o ++ [c]).length + (mid ++ [c]).tail.length := hl.symm
      have e2 : o.length + 1 = (o ++ [c]).length := by simp
      rw [e1, e2, h1]
      simp
      omega

theorem c_str_append {name : List Nat} (h0 : 0 ∉ name) (junk : List Nat) :
    c_str (name ++ 0 :: junk) = name := by
  induction name with
  | nil => simp [c_str]
  | cons x name ih =>
    have hx : x ≠ 0 := fun h => h0 (by simp [h])
    have h0' : 0 ∉ name := fun h => h0 (by simp [h])
    simp [c_str, hx, ih h0']

theorem set_end (a b : List Nat) (v : Nat) (hb : b ≠ []) :
    (a ++ b).set a.length v = a ++ v :: b.tail := by
  cases b with
  | nil => exact absurd rfl hb
  | cons c b => exact set_mid a b c v

/-- The dst adjustment of line 64 yields `core`. -/
theorem adjust_spec (s mid tail : List Nat) :
    ∃ mid2, scan s [] ++ mid ++ tail = core s ++ mid2 ++ tail ∧
      (if (scan s []).length > 0 ∧
          (scan s [] ++ mid ++ tail).getD ((scan s []).length - 1) 0 = 95
        then (scan s []).length - 1 else (scan s []).length) = (core s).length ∧
      (core s).length + mid2.length = (scan s []).length + mid.length := by
  have htest := last_test (scan s []) (mid ++ tail)
  rw [← List.append_assoc] at htest
  unfold core
  by_cases h : scan s [] ≠ [] ∧ (scan s []).getLast? = some 95
  · have hc : (scan s []).length > 0 ∧
        (scan s [] ++ mid ++ tail).getD ((scan s []).length - 1) 0 = 95 := by
      by_contra hn
      have : (scan s []).length = 0 ∨
          (scan s [] ++ mid ++ tail).getD ((scan s []).length - 1) 0 ≠ 95 := by
        by_cases h0 : (scan s []).length = 0
        · exact Or.inl h0
        · right; intro h95; exact hn ⟨by omega, h95⟩
      rcases htest.mp this with h1 | h1
      · exact h.1 h1
      · exact h1 h.2
    rw [if_pos hc, if_pos h]
    obtain ⟨hne, hl⟩ := h
    obtain ⟨l, x, hx⟩ : ∃ l x, scan s [] = l ++ [x] :=
      ⟨_, _, (List.dropLast_append_getLast hne).symm⟩
    rw [hx] at hl ⊢
    refine ⟨x :: mid, by simp, by simp, by simp; omega⟩
  · have hc : ¬ ((scan s []).length > 0 ∧
        (scan s [] ++ mid ++ tail).getD ((scan s []).length - 1) 0 = 95) := by
      rintro ⟨hpos, h95⟩
      apply h
      refine ⟨by intro h0; rw [h0] at hpos; simp at hpos, ?_⟩
      by_contra hl
      rcases htest.mpr (Or.inr hl) with h1 | h1
      · omega
      · exact h1 h95
    rw [if_neg hc, if_neg h]
    exact ⟨mid, rfl, rfl, rfl⟩

/-- Lines 72-78: terminate at `dst`, then drop one leading underscore. -/
theorem finish_spec (o rest : List Nat) (hrest : rest ≠ []) (h0 : 0 ∉ o) :
    c_str (if ((o ++ rest).set o.length 0).getD 0 0 = 95 then
        (memmove ((o ++ rest).set o.length 0) 0 1 o.length).set (o.length - 1) 0
      else (o ++ rest).set o.length 0) = lead o := by
  rw [set_end o rest 0 hrest]
  cases o with
  | nil => simp [lead, c_str]
  | cons x o =>
    have hx : x ≠ 0 := fun h => h0 (by simp [h])
    have h0' : 0 ∉ o := fun h => h0 (by simp [h])
    by_cases h95 : x = 95
    · subst h95
      have hm : memmove (95 :: o ++ 0 :: rest.tail) 0 1 (95 :: o).length =
          o ++ 0 :: 0 :: rest.tail := by
        unfold memmove
        simp only [List.take_zero, List.nil_append, List.cons_append, List.drop_succ_cons,
          List.drop_zero, List.length_cons, Nat.zero_add]
        rw [List.take_append_eq_append_take]
        simp
      have hg : ((95 :: o ++ 0 :: rest.tail).getD 0 0 = 95) = True := by simp
      simp only [hg, if_true, hm]
      have hset : (o ++ 0 :: 0 :: rest.tail).set ((95 :: o).length - 1) 0 =
          o ++ 0 :: 0 :: rest.tail := by
        simp
      rw [hset, c_str_append h0']
      simp [lead]
    · have : ((x :: o ++ 0 :: rest.tail).getD 0 0 = 95) = False := by simp [h95]
      simp only [this, if_false]
      rw [c_str_append h0]
      simp [lead, h95]

theorem core_no_nul (s : List Nat) : 0 ∉ core s := by
  intro h
  have := (core_clean s).1.1 0 h
  unfold SafeByte at this
  omega

/-- The in-place run on a buffer holding `name`, its NUL and arbitrary further bytes
leaves the string `replace_chars_pure name e` in the buffer. -/
theorem replace_chars_fuel_eq (fuel : Nat) (name junk : List Nat) (e : Bool) (h0 : 0 ∉ name)
    (hfuel : name.length ≤ fuel) :
    c_str (replace_chars_fuel fuel (name ++ 0 :: junk) e) = replace_chars_pure name e := by
  rcases ext_cases name e with ⟨he, pre, suf, hn, hs⟩ | hne
  · subst he
    have hext : strrchr name 46 = some pre.length := by rw [hn]; exact strrchr_append_cons hs
    have hpre0 : ∀ c ∈ pre, c ≠ 0 := by
      intro c hc h; subst h; exact h0 (by rw [hn]; simp [hc])
    have hsuf0 : ∀ c ∈ (46 :: suf), c ≠ 0 := by
      intro c hc h; subst h
      rcases List.mem_cons.mp hc with h | h
      · cases h
      · exact h0 (by rw [hn]; simp [h])
    have hfuel1 : pre.length ≤ fuel := by rw [hn] at hfuel; simp at hfuel; omega
    have hfuel2 : (46 :: suf).length ≤ fuel := by rw [hn] at hfuel; simp at hfuel ⊢; omega
    obtain ⟨mid1, hs1, hl1⟩ := loop_scan_spec (some pre.length) pre fuel
      [] [] (46 :: suf ++ 0 :: junk) hfuel1 hpre0
      (by intro k hk h; simp at h; omega) (Or.inr (by simp))
    have hbuf : ([] : List Nat) ++ [] ++ pre ++ (46 :: suf ++ 0 :: junk) = name ++ 0 :: junk := by
      rw [hn]; simp
    rw [hbuf] at hs1
    simp only [List.length_nil, Nat.add_zero] at hs1
    obtain ⟨mid2, hb2, hd2, hl2⟩ := adjust_spec pre mid1 (46 :: suf ++ 0 :: junk)
    obtain ⟨mid3, hs3, _⟩ := loop_ext_spec (46 :: suf) fuel (core pre) mid2
      (0 :: junk) hfuel2 hsuf0 rfl
    have hpos : (core pre).length + mid2.length = pre.length := by
      rw [hl2]; simpa using hl1
    have hb3 : core pre ++ mid2 ++ (46 :: suf ++ 0 :: junk) =
        core pre ++ mid2 ++ (46 :: suf) ++ 0 :: junk := by simp
    unfold replace_chars_fuel
    simp only [c_str_append h0, if_true, hext, hs1, hd2]
    rw [hb2, hb3, ← hpos, hs3]
    have hfin := finish_spec (core pre ++ 46 :: suf) (mid3 ++ 0 :: junk) (by simp)
      (by
        intro h
        rcases List.mem_append.mp h with h | h
        · exact core_no_nul pre h
        · exact hsuf0 0 h rfl)
    have e1 : core pre ++ 46 :: suf ++ mid3 ++ 0 :: junk =
        core pre ++ 46 :: suf ++ (mid3 ++ 0 :: junk) := by simp
    have e2 : (core pre).length + (46 :: suf).length = (core pre ++ 46 :: suf).length := by simp
    simp only [e1, e2]
    rw [hfin, hn, rc_ext hs]
  · have hext : (if e = true then strrchr (c_str (name ++ 0 :: junk)) 46 else none) = none := by
      rw [c_str_append h0]
      rcases hne with h | h
      · simp [h]
      · simp [strrchr_none.mpr h]
    obtain ⟨mid1, hs1, hl1⟩ := loop_scan_spec none name fuel
      [] [] (0 :: junk) hfuel (fun c hc h => h0 (h ▸ hc))
      (by intro k _ h; cases h) (Or.inl rfl)
    have hbuf : ([] : List Nat) ++ [] ++ name ++ (0 :: junk) = name ++ 0 :: junk := by simp
    rw [hbuf] at hs1
    simp only [List.length_nil, Nat.add_zero] at hs1
    obtain ⟨mid2, hb2, hd2, hl2⟩ := adjust_spec name mid1 (0 :: junk)
    unfold replace_chars_fuel
    simp only [hext, hs1, hd2]
    rw [hb2]
    have hfin := finish_spec (core name) (mid2 ++ 0 :: junk) (by simp) (core_no_nul name)
    have e1 : core name ++ mid2 ++ 0 :: junk = core name ++ (mid2 ++ 0 :: junk) := by simp
    simp only [e1]
    rw [hfin, rc_noext hne]


/-! ### the sanitizer contract -/

/-- The in-place run leaves the string-level result, whatever follows the NUL. -/
theorem replace_chars_eq (name junk : List Nat) (e : Bool) (h0 : 0 ∉ name) :
    c_str (replace_chars (name ++ 0 :: junk) e) = replace_chars_pure name e :=
  replace_chars_fuel_eq _ name junk e h0 (by simp)

theorem sanitize_eq {name : List Nat} (e : Bool) (h0 : 0 ∉ name) :
    sanitize name e = replace_chars_pure name e :=
  replace_chars_eq name [] e h0

theorem mem_extension {name : List Nat} {e : Bool} {c : Nat} (h : c ∈ extension name e) :
    c ∈ name := by
  unfold extension at h
  split_ifs at h
  · cases hs : strrchr name 46 with
    | none => rw [hs] at h; simp at h
    | some i => rw [hs] at h; exact List.mem_of_mem_drop h
  · simp at h

theorem pure_no_nul {name : List Nat} (e : Bool) (h0 : 0 ∉ name) :
    0 ∉ replace_chars_pure name e := by
  obtain ⟨p, hp, hsafe, _, _⟩ := pure_stem_safe name e
  rw [hp]
  intro h
  rcases List.mem_append.mp h with h | h
  · have := hsafe 0 h; omega
  · exact h0 (mem_extension h)

/-- C1: `sanitize` is idempotent: for every name `n` without NUL and every flag `e`,
`sanitize (sanitize n e) e = sanitize n e`. -/
theorem sanitize_idem (n : List Nat) (e : Bool) (h0 : 0 ∉ n) :
    sanitize (sanitize n e) e = sanitize n e := by
  rw [sanitize_eq e h0, sanitize_eq e (pure_no_nul e h0), pure_idem]

theorem sanitize_idem_witness :
    0 ∉ cstr "--weird__name--.mp4" ∧
    sanitize (sanitize (cstr "--weird__name--.mp4") true) true =
      sanitize (cstr "--weird__name--.mp4") true :=
  ⟨by decide, sanitize_idem (cstr "--weird__name--.mp4") true (by decide)⟩

/-- C2: for every name `n` without NUL and every flag `e`, `sanitize n e` is a string `p`
followed by the extension of `n` (the bytes from its last `'.'` when `e` is set and
there is one, nothing otherwise), where `p` consists of bytes of `[a-z0-9_]` only,
does not begin with `'_'` and contains no two consecutive `'_'`. -/
theorem sanitize_stem_safe (n : List Nat) (e : Bool) (h0 : 0 ∉ n) :
    ∃ p, sanitize n e = p ++ extension n e ∧
      (∀ c ∈ p, (97 ≤ c ∧ c ≤ 122) ∨ (48 ≤ c ∧ c ≤ 57) ∨ c = 95) ∧
      p.head? ≠ some 95 ∧ ¬ [95, 95] <:+: p := by
  rw [sanitize_eq e h0]
  exact pure_stem_safe n e

theorem sanitize_stem_safe_witness :
    0 ∉ cstr "--weird__name--.mp4" ∧
    ∃ p, sanitize (cstr "--weird__name--.mp4") true =
        p ++ extension (cstr "--weird__name--.mp4") true ∧
      (∀ c ∈ p, (97 ≤ c ∧ c ≤ 122) ∨ (48 ≤ c ∧ c ≤ 57) ∨ c = 95) ∧
      p.head? ≠ some 95 ∧ ¬ [95, 95] <:+: p :=
  ⟨by decide, sanitize_stem_safe (cstr "--weird__name--.mp4") true (by decide)⟩

/-- C3: for every name `n` without NUL that contains a `'.'`, `n` is
`pre ++ '.' :: suf` with no `'.'` in `suf` (so `'.' :: suf` runs from the last `'.'` of
`n` to its end), and `sanitize n true` ends with `'.' :: suf`, byte for byte. -/
theorem sanitize_keeps_extension (n : List Nat) (h0 : 0 ∉ n) (hdot : 46 ∈ n) :
    ∃ pre suf, n = pre ++ 46 :: suf ∧ 46 ∉ suf ∧ (46 :: suf) <:+ sanitize n true := by
  rcases ext_cases n true with ⟨_, pre, suf, hn, hs⟩ | h
  · refine ⟨pre, suf, hn, hs, ?_⟩
    rw [sanitize_eq true h0]
    exact pure_keeps_extension n pre suf hn hs
  · rcases h with h | h
    · cases h
    · exact absurd hdot h

theorem sanitize_keeps_extension_witness :
    0 ∉ cstr "FILE NAME.TXT" ∧ 46 ∈ cstr "FILE NAME.TXT" ∧
    ∃ pre suf, cstr "FILE NAME.TXT" = pre ++ 46 :: suf ∧ 46 ∉ suf ∧
      (46 :: suf) <:+ sanitize (cstr "FILE NAME.TXT") true :=
  ⟨by decide, by decide,
    sanitize_keeps_extension (cstr "FILE NAME.TXT") (by decide) (by decide)⟩

/-- C10: for every name without NUL whose portion before the extension contains no
ASCII letter or digit, `sanitize` returns exactly the extension: the empty string when
there is no extension, and otherwise a name that begins with `'.'`. -/
theorem sanitize_no_alnum (n : List Nat) (e : Bool) (h0 : 0 ∉ n)
    (h : ∀ c ∈ stem n e,
      ¬ ((65 ≤ c ∧ c ≤ 90) ∨ (97 ≤ c ∧ c ≤ 122) ∨ (48 ≤ c ∧ c ≤ 57))) :
    sanitize n e = extension n e ∧
      ((e = false ∨ 46 ∉ n) → sanitize n e = []) ∧
      ((e = true ∧ 46 ∈ n) → (sanitize n e).head? = some 46) := by
  rw [sanitize_eq e h0]
  exact pure_no_alnum n e h

theorem sanitize_no_alnum_witness :
    0 ∉ cstr "---.txt" ∧
    (∀ c ∈ stem (cstr "---.txt") true,
      ¬ ((65 ≤ c ∧ c ≤ 90) ∨ (97 ≤ c ∧ c ≤ 122) ∨ (48 ≤ c ∧ c ≤ 57))) ∧
    sanitize (cstr "---.txt") true = extension (cstr "---.txt") true ∧
    extension (cstr "---.txt") true = cstr ".txt" :=
  ⟨by decide, by decide,
    (sanitize_no_alnum (cstr "---.txt") true (by decide) (by decide)).1, by decide⟩

/-! ### TreeCollector -/

theorem take_take_append (k : Nat) (l x : List Nat) :
    (l.take k ++ x).take k = (l ++ x).take k := by
  by_cases h : l.length ≤ k
  · rw [List.take_of_length_le h]
  · have hk : k ≤ l.length := by omega
    rw [List.take_append_of_le_length hk,
      List.take_append_of_le_length (by rw [List.length_take]; omega), List.take_take]
    simp

theorem subpath_inv {root path d_name : List Nat} {comps : List (List Nat)}
    (h : PathInv root path comps) (hn : d_name.head? ≠ some 46) (hs : 47 ∉ d_name) :
    snprintf_path MAX_PATH path d_name = path_below root (comps ++ [d_name]) ∧
    PathInv root (snprintf_path MAX_PATH path d_name) (comps ++ [d_name]) := by
  have e1 : snprintf_path MAX_PATH path d_name = path_below root (comps ++ [d_name]) := by
    unfold snprintf_path path_below
    rw [h.2]
    simp
  refine ⟨e1, ?_, ?_⟩
  · intro c hc
    rcases List.mem_append.mp hc with hc | hc
    · exact h.1 c hc
    · simp at hc; subst hc; exact ⟨hn, hs⟩
  · intro x
    rw [e1]
    unfold path_below
    exact take_take_append _ _ _

mutual
theorem dfs_recorded (root : List Nat) :
    ∀ (listing : List Dirent) (g : Globals) (path : List Nat) (depth : Int)
      (comps : List (List Nat)),
      listing_ok listing = true → PathInv root path comps → depth = comps.length →
      ∀ e ∈ (dfs g path depth listing).entries, e ∈ g.entries ∨ Recorded root e
  | [], g, path, depth, comps, _, _, _ => by
    intro e he
    left
    simpa [dfs] using he
  | entry :: rest, g, path, depth, comps, hok, hp, hd => by
    intro e he
    simp only [dfs] at he
    simp only [listing_ok, Bool.and_eq_true] at hok
    rcases dfs_recorded root rest _ path depth comps hok.2 hp hd e he with h | h
    · exact dfs_entry_recorded root entry g path depth comps hok.1 hp hd e h
    · exact Or.inr h
theorem dfs_entry_recorded (root : List Nat) :
    ∀ (entry : Dirent) (g : Globals) (path : List Nat) (depth : Int)
      (comps : List (List Nat)),
      dirent_ok entry = true → PathInv root path comps → depth = comps.length →
      ∀ e ∈ (dfs_entry g path depth entry).entries, e ∈ g.entries ∨ Recorded root e
  | .mk d_name d_type sub, g, path, depth, comps, hok, hp, hd => by
    intro e he
    simp only [dirent_ok, Bool.and_eq_true, decide_eq_true_eq] at hok
    simp only [dfs_entry] at he
    split_ifs at he with h1 h2 h3
    · exact Or.inl he
    · obtain ⟨e1, hp'⟩ := subpath_inv hp h1 hok.1
      have hrec : ∀ e ∈ (process_entry g (snprintf_path MAX_PATH path d_name) depth).entries,
          e ∈ g.entries ∨ Recorded root e := by
        intro e he
        simp only [process_entry] at he
        rcases List.mem_append.mp he with he | he
        · exact Or.inl he
        · right
          simp at he
          subst he
          refine ⟨comps ++ [d_name], by simp, hp'.1, ?_, ?_⟩
          · simp only [strlcpy, e1, path_below, List.take_take]
            simp
          · simp [hd]
      rcases dfs_recorded root sub _ _ (depth + 1) (comps ++ [d_name]) hok.2 hp'
          (by simp [hd]) e he with h | h
      · exact hrec e h
      · exact Or.inr h
    · obtain ⟨e1, hp'⟩ := subpath_inv hp h1 hok.1
      simp only [process_entry] at he
      rcases List.mem_append.mp he with he | he
      · exact Or.inl he
      · right
        simp at he
        subst he
        refine ⟨comps ++ [d_name], by simp, hp'.1, ?_, ?_⟩
        · simp only [strlcpy, e1, path_below, List.take_take]
          simp
        · simp [hd]
    · exact Or.inl he
end

theorem pathInv_root (root : List Nat) : PathInv root root [] :=
  ⟨by simp, by simp⟩



/-- C6: for every listing tree whose names contain no `'/'`, every root and every state
of the globals, each entry that `dfs` adds has a path of the form
`root/c₁/…/cₙ` (cut to the buffer size) with `n = depth + 1 ≥ 1`, where no
component `cᵢ` begins with `'.'`. -/
theorem dfs_records_no_hidden (listing : List Dirent) (root : List Nat) (g : Globals)
    (hok : listing_ok listing = true) :
    ∀ e ∈ (dfs g root 0 listing).entries, e ∈ g.entries ∨
      ∃ comps : List (List Nat), comps ≠ [] ∧
        (∀ c ∈ comps, c.head? ≠ some 46 ∧ 47 ∉ c) ∧
        e.path = path_below root comps ∧ e.depth + 1 = comps.length :=
  dfs_recorded root listing g root 0 [] hok (pathInv_root root) (by simp)

theorem dfs_records_no_hidden_witness :
    listing_ok sampleTree = true ∧
    (⟨cstr "top/My Dir/a.txt", 1⟩ : Entry) ∈ (dfs Globals.init (cstr "top") 0 sampleTree).entries ∧
    ((⟨cstr "top/My Dir/a.txt", 1⟩ : Entry) ∈ Globals.init.entries ∨
      ∃ comps : List (List Nat), comps ≠ [] ∧
        (∀ c ∈ comps, c.head? ≠ some 46 ∧ 47 ∉ c) ∧
        (⟨cstr "top/My Dir/a.txt", 1⟩ : Entry).path = path_below (cstr "top") comps ∧
        (⟨cstr "top/My Dir/a.txt", 1⟩ : Entry).depth + 1 = comps.length) :=
  ⟨by decide, by decide,
    dfs_records_no_hidden sampleTree (cstr "top") Globals.init (by decide) _ (by decide)⟩

/-! ### RenameScheduler -/

/-! ### process_entry invariants -/

theorem process_entry_bounded {g : Globals} {fpath : List Nat} {depth : Int}
    (h : 0 ≤ g.max_depth ∧ ∀ e ∈ g.entries, e.depth ≤ g.max_depth) :
    0 ≤ (process_entry g fpath depth).max_depth ∧
      ∀ e ∈ (process_entry g fpath depth).entries, e.depth ≤ (process_entry g fpath depth).max_depth := by
  obtain ⟨h0, hb⟩ := h
  simp only [process_entry]
  refine ⟨?_, ?_⟩
  · split_ifs <;> omega
  · intro e he
    rcases List.mem_append.mp he with he | he
    · have := hb e he
      split_ifs <;> omega
    · simp at he
      subst he
      simp only
      split_ifs <;> omega

theorem process_entry_nonneg {g : Globals} {fpath : List Nat} {depth : Int}
    (h : ∀ e ∈ g.entries, 0 ≤ e.depth) (hd : 0 ≤ depth) :
    ∀ e ∈ (process_entry g fpath depth).entries, 0 ≤ e.depth := by
  intro e he
  simp only [process_entry] at he
  rcases List.mem_append.mp he with he | he
  · exact h e he
  · simp at he
    subst he
    exact hd

theorem foldl_process_entry_inv (ops : List (List Nat × Int)) (hd : ∀ op ∈ ops, 0 ≤ op.2) :
    ∀ g : Globals, (0 ≤ g.max_depth ∧ ∀ e ∈ g.entries, e.depth ≤ g.max_depth) →
      (∀ e ∈ g.entries, 0 ≤ e.depth) →
      ∀ e ∈ (ops.foldl (fun g op => process_entry g op.1 op.2) g).entries,
        0 ≤ e.depth ∧ e.depth ≤ (ops.foldl (fun g op => process_entry g op.1 op.2) g).max_depth := by
  induction ops with
  | nil =>
    intro g hb hn e he
    exact ⟨hn e he, hb.2 e he⟩
  | cons op ops ih =>
    intro g hb hn
    simp only [List.foldl_cons]
    exact ih (fun o ho => hd o (by simp [ho])) _ (process_entry_bounded hb)
      (process_entry_nonneg hn (hd op (by simp)))

theorem record_all_depth_bounds (ops : List (List Nat × Int)) (hd : ∀ op ∈ ops, 0 ≤ op.2) :
    ∀ e ∈ (record_all ops).entries, 0 ≤ e.depth ∧ e.depth ≤ (record_all ops).max_depth :=
  foldl_process_entry_inv ops hd Globals.init ⟨by simp [Globals.init], by simp [Globals.init]⟩
    (by simp [Globals.init])

/-! ### index ranges -/

theorem range_owner (len W i : Nat) (hW : 1 ≤ W) (hi : i < len) :
    ∃ t, (t < W ∧ start_index len W t ≤ i ∧ i < end_index len W t) ∧
      ∀ t', (t' < W ∧ start_index len W t' ≤ i ∧ i < end_index len W t') → t' = t := by
  unfold start_index end_index
  by_cases hlast : (W - 1) * (len / W) ≤ i
  · refine ⟨W - 1, ⟨by omega, hlast, by simpa using hi⟩, ?_⟩
    rintro t' ⟨ht', _, h2⟩
    by_contra hne
    rw [if_neg hne] at h2
    have : (t' + 1) * (len / W) ≤ (W - 1) * (len / W) :=
      Nat.mul_le_mul_right _ (by omega)
    omega
  · have hlt : i < (W - 1) * (len / W) := by omega
    have hq : 0 < len / W := by
      rcases Nat.eq_zero_or_pos (len / W) with h0 | h0
      · rw [h0] at hlt; simp at hlt
      · exact h0
    have ht : i / (len / W) < W - 1 := (Nat.div_lt_iff_lt_mul hq).mpr hlt
    refine ⟨i / (len / W), ⟨by omega, Nat.div_mul_le_self _ _, ?_⟩, ?_⟩
    · rw [if_neg (by omega)]
      exact (Nat.div_lt_iff_lt_mul hq).mp (Nat.lt_succ_self _)
    · rintro t' ⟨ht', h1, h2⟩
      by_cases hne : t' = W - 1
      · rw [hne] at h1; omega
      · rw [if_neg hne] at h2
        exact (Nat.div_eq_of_lt_le h1 h2).symm

/-! ### visits -/

theorem mem_depth_levels {m d : Int} : d ∈ depth_levels m ↔ 0 ≤ d ∧ d ≤ m := by
  unfold depth_levels
  simp only [List.mem_map, List.mem_reverse, List.mem_range]
  constructor
  · rintro ⟨k, hk, rfl⟩
    simp only [Int.ofNat_eq_coe]
    omega
  · rintro ⟨h0, hm⟩
    exact ⟨d.toNat, by omega, by simp [h0]⟩

theorem depth_levels_nodup (m : Int) : (depth_levels m).Nodup := by
  unfold depth_levels
  refine List.Nodup.map ?_ (List.nodup_reverse.mpr (List.nodup_range _))
  intro a b h
  exact Int.ofNat.inj h

theorem mem_thread_visits {g : Globals} {W t : Nat} {d : Int} {i : Nat} :
    (d, i) ∈ thread_visits g W t ↔
      (0 ≤ d ∧ d ≤ g.max_depth) ∧
      (start_index g.num_entries W t ≤ i ∧ i < end_index g.num_entries W t) ∧
      (g.entries.get? i).map Entry.depth = some d := by
  unfold thread_visits
  simp only [List.mem_flatMap, List.mem_map, List.mem_filter, List.mem_range'_1,
    mem_depth_levels, Prod.mk.injEq, decide_eq_true_eq]
  constructor
  · rintro ⟨d', hd', j, ⟨⟨hj1, hj2⟩, hj3⟩, rfl, rfl⟩
    exact ⟨hd', ⟨hj1, by omega⟩, hj3⟩
  · rintro ⟨hd, ⟨h1, h2⟩, h3⟩
    exact ⟨d, hd, i, ⟨⟨h1, by omega⟩, h3⟩, rfl, rfl⟩

theorem thread_visits_nodup (g : Globals) (W t : Nat) : (thread_visits g W t).Nodup := by
  unfold thread_visits
  rw [List.nodup_flatMap]
  refine ⟨?_, ?_⟩
  · intro d _
    refine List.Nodup.map ?_ (List.Nodup.filter _ (List.nodup_range' _ _))
    intro a b h
    exact (Prod.mk.inj h).2
  · refine List.Pairwise.imp ?_ (depth_levels_nodup g.max_depth)
    intro a b hab
    rw [Function.onFun, List.disjoint_left]
    intro x hx hx'
    simp only [List.mem_map] at hx hx'
    obtain ⟨_, _, rfl⟩ := hx
    obtain ⟨_, _, h⟩ := hx'
    exact hab (Prod.mk.inj h).1.symm

theorem filter_eq_singleton {α : Type} {p : α → Bool} {a : α} :
    ∀ {l : List α}, l.Nodup → a ∈ l → (∀ x ∈ l, p x = true ↔ x = a) → l.filter p = [a] := by
  intro l
  induction l with
  | nil => intro _ ha _; simp at ha
  | cons b l ih =>
    intro hnd ha hp
    rw [List.nodup_cons] at hnd
    by_cases hb : b = a
    · subst hb
      have hpb : p b = true := (hp b (by simp)).mpr rfl
      have hrest : l.filter p = [] := by
        rw [List.filter_eq_nil_iff]
        intro x hx hpx
        have := (hp x (by simp [hx])).mp hpx
        subst this
        exact hnd.1 hx
      rw [List.filter_cons, if_pos hpb, hrest]
    · have hpb : ¬ p b = true := fun h => hb ((hp b (by simp)).mp h)
      have ha' : a ∈ l := by
        rcases List.mem_cons.mp ha with h | h
        · exact absurd h.symm hb
        · exact h
      rw [List.filter_cons, if_neg hpb]
      exact ih hnd.2 ha' (fun x hx => hp x (by simp [hx]))

/-- C8: for entries recorded by any sequence of `process_entry` calls with depths `≥ 0`
and any `W ≥ 1` workers, every index `i` holds an entry `e` with
`0 ≤ e.depth ≤ max_depth`, lies in the index range of exactly one worker `t`, and the
visits of any worker `t'` to `i` over the whole depth loop are the single visit in
iteration `e.depth` when `t' = t`, and none otherwise. -/
theorem schedule_visits_each_entry_once (ops : List (List Nat × Int)) (W i : Nat)
    (hW : 1 ≤ W) (hd : ∀ op ∈ ops, 0 ≤ op.2) (hi : i < (record_all ops).num_entries) :
    ∃ e t, (record_all ops).entries.get? i = some e ∧
      0 ≤ e.depth ∧ e.depth ≤ (record_all ops).max_depth ∧ t < W ∧
      (∀ t', t' < W →
        ((start_index (record_all ops).num_entries W t' ≤ i ∧
          i < end_index (record_all ops).num_entries W t') ↔ t' = t)) ∧
      (∀ t', t' < W →
        (thread_visits (record_all ops) W t').filter (fun v => v.2 = i) =
          if t' = t then [(e.depth, i)] else []) := by
  have hi' : i < (record_all ops).entries.length := hi
  obtain ⟨t, ⟨htW, hts, hte⟩, huniq⟩ := range_owner (record_all ops).num_entries W i hW hi
  have hget : (record_all ops).entries.get? i = some ((record_all ops).entries.get ⟨i, hi'⟩) :=
    List.get?_eq_get hi'
  have hb := record_all_depth_bounds ops hd _ (List.get_mem _ i hi')
  refine ⟨(record_all ops).entries.get ⟨i, hi'⟩, t, hget, hb.1, hb.2, htW, ?_, ?_⟩
  · intro t' ht'
    constructor
    · intro h
      exact huniq t' ⟨ht', h⟩
    · rintro rfl
      exact ⟨hts, hte⟩
  · intro t' ht'
    split_ifs with hc
    · subst hc
      refine filter_eq_singleton (thread_visits_nodup _ _ _) ?_ ?_
      · rw [mem_thread_visits]
        exact ⟨hb, ⟨hts, hte⟩, by rw [hget]; rfl⟩
      · rintro ⟨d, j⟩ hx
        rw [mem_thread_visits] at hx
        simp only [decide_eq_true_eq, Prod.mk.injEq]
        constructor
        · rintro rfl
          obtain ⟨_, _, hdep⟩ := hx
          rw [hget] at hdep
          simp at hdep
          exact ⟨hdep.symm, rfl⟩
        · rintro ⟨_, rfl⟩
          rfl
    · rw [List.filter_eq_nil_iff]
      rintro ⟨d, j⟩ hx hj
      simp only [decide_eq_true_eq] at hj
      subst hj
      rw [mem_thread_visits] at hx
      exact hc (huniq t' ⟨ht', hx.2.1⟩)

theorem schedule_visits_each_entry_once_witness :
    ∃ e t, (record_all [([97], 0), ([97, 47, 98], 1), ([99], 0)]).entries.get? 1 = some e ∧
      0 ≤ e.depth ∧ e.depth ≤ (record_all [([97], 0), ([97, 47, 98], 1), ([99], 0)]).max_depth ∧
      t < 2 ∧
      (∀ t', t' < 2 →
        ((start_index (record_all [([97], 0), ([97, 47, 98], 1), ([99], 0)]).num_entries 2 t' ≤ 1 ∧
          1 < end_index (record_all [([97], 0), ([97, 47, 98], 1), ([99], 0)]).num_entries 2 t')
            ↔ t' = t)) ∧
      (∀ t', t' < 2 →
        (thread_visits (record_all [([97], 0), ([97, 47, 98], 1), ([99], 0)]) 2 t').filter
            (fun v => v.2 = 1) =
          if t' = t then [(e.depth, 1)] else []) :=
  schedule_visits_each_entry_once [([97], 0), ([97, 47, 98], 1), ([99], 0)] 2 1
    (by decide) (by decide) (by decide)

/-- C9, counterexample: with 5 entries and 2 workers, the range of worker 0 (not the
last) has 2 indices, not `⌈5 / 2⌉ = 3`. -/
theorem range_size_not_ceil :
    1 ≤ 2 ∧ 0 + 1 < 2 ∧ end_index 5 2 0 - start_index 5 2 0 ≠ (5 + 2 - 1) / 2 := by
  decide

/-- C9, amended: for every entry count `len` and worker `t` of `W` workers, the range
of `t` is well formed and ends within the list; a worker other than the last has
exactly `⌊len / W⌋` indices and its range ends where the next one starts; the range of
the last worker starts at `(W - 1) * ⌊len / W⌋` and runs up to `len`. -/
theorem range_size_floor (len W t : Nat) (ht : t < W) :
    start_index len W t ≤ end_index len W t ∧ end_index len W t ≤ len ∧
    (t + 1 < W → end_index len W t - start_index len W t = len / W ∧
      end_index len W t = start_index len W (t + 1)) ∧
    (t + 1 = W → start_index len W t = (W - 1) * (len / W) ∧ end_index len W t = len) := by
  unfold start_index end_index
  have hWq : W * (len / W) ≤ len := by
    rw [Nat.mul_comm]; exact Nat.div_mul_le_self len W
  have hle : (W - 1) * (len / W) ≤ len :=
    le_trans (Nat.mul_le_mul_right _ (Nat.sub_le W 1)) hWq
  refine ⟨?_, ?_, ?_, ?_⟩
  · split_ifs with h
    · rw [h]; exact hle
    · exact Nat.mul_le_mul_right _ (Nat.le_succ t)
  · split_ifs with h
    · exact le_refl _
    · exact le_trans (Nat.mul_le_mul_right _ (by omega)) hWq
  · intro h
    rw [if_neg (by omega), Nat.succ_mul]
    exact ⟨Nat.add_sub_cancel_left _ _, rfl⟩
  · intro h
    have h1 : t = W - 1 := by omega
    rw [if_pos h1, h1]
    exact ⟨rfl, rfl⟩

theorem range_size_floor_witness :
    start_index 5 2 0 ≤ end_index 5 2 0 ∧ end_index 5 2 0 ≤ 5 ∧
    (0 + 1 < 2 → end_index 5 2 0 - start_index 5 2 0 = 5 / 2 ∧
      end_index 5 2 0 = start_index 5 2 (0 + 1)) ∧
    (0 + 1 = 2 → start_index 5 2 0 = (2 - 1) * (5 / 2) ∧ end_index 5 2 0 = 5) :=
  range_size_floor 5 2 0 (by decide)

/-! ### rename pass -/

/-! ### one step -/

theorem renameat2_noreplace_ino (dir : List Link) (o n : List Nat) :
    (renameat2_noreplace dir o n).map Link.ino = dir.map Link.ino := by
  unfold renameat2_noreplace
  split_ifs
  · rfl
  · rw [List.map_map]
    apply List.map_congr_left
    intro l _
    simp only [Function.comp]
    split_ifs <;> rfl

theorem rename_entry_ino (dr : Bool) (dir : List Link) (x : List Nat) :
    (rename_entry dr dir x).map Link.ino = dir.map Link.ino := by
  unfold rename_entry
  cases fstatat dir x with
  | none => rfl
  | some st =>
    simp only
    split_ifs
    · exact renameat2_noreplace_ino _ _ _
    · rfl

theorem rename_entry_keeps (dr : Bool) {dir : List Link} {x : List Nat} {l : Link}
    (hl : l ∈ dir) (hx : l.name ≠ x) : l ∈ rename_entry dr dir x := by
  unfold rename_entry
  cases fstatat dir x with
  | none => exact hl
  | some st =>
    simp only
    split_ifs
    · unfold renameat2_noreplace
      split_ifs
      · exact hl
      · rw [List.mem_map]
        exact ⟨l, hl, by rw [if_neg hx]⟩
    · exact hl

theorem fstatat_of_mem {dir : List Link} (hnd : (dir.map Link.name).Nodup) {l : Link}
    (hl : l ∈ dir) : fstatat dir l.name = some l := by
  unfold fstatat
  induction dir with
  | nil => simp at hl
  | cons h t ih =>
    rw [List.map_cons, List.nodup_cons] at hnd
    rcases List.mem_cons.mp hl with rfl | hl'
    · simp
    · have hne : h.name ≠ l.name := by
        intro he
        apply hnd.1
        rw [he]
        exact List.mem_map_of_mem _ hl'
      rw [List.find?_cons_of_neg _ (by simpa using hne)]
      exact ih hnd.2 hl'

theorem fstatat_some {dir : List Link} {x : List Nat} {st : Link}
    (h : fstatat dir x = some st) : st ∈ dir ∧ st.name = x := by
  unfold fstatat at h
  exact ⟨List.mem_of_find?_eq_some h, by simpa using List.find?_some h⟩

theorem renameat2_noreplace_names (dir : List Link) (o n : List Nat) :
    (renameat2_noreplace dir o n).map Link.name =
      if n = [] ∨ n = [46] ∨ n = [46, 46] ∨ n ∈ dir.map Link.name then dir.map Link.name
      else (dir.map Link.name).map fun m => if m = o then n else m := by
  unfold renameat2_noreplace
  split_ifs
  · rfl
  · rw [List.map_map, List.map_map]
    apply List.map_congr_left
    intro l _
    simp only [Function.comp]
    split_ifs <;> rfl

theorem renameat2_noreplace_nodup {dir : List Link} (hnd : (dir.map Link.name).Nodup)
    (o n : List Nat) : ((renameat2_noreplace dir o n).map Link.name).Nodup := by
  rw [renameat2_noreplace_names]
  split_ifs with h
  · exact hnd
  · have hn : n ∉ dir.map Link.name := fun hm => h (Or.inr (Or.inr (Or.inr hm)))
    refine List.Nodup.map_on ?_ hnd
    intro x hx y hy hxy
    by_cases h1 : x = o <;> by_cases h2 : y = o
    · rw [h1, h2]
    · rw [if_pos h1, if_neg h2] at hxy
      exact absurd (hxy ▸ hy) hn
    · rw [if_neg h1, if_pos h2] at hxy
      exact absurd (hxy.symm ▸ hx) hn
    · rw [if_neg h1, if_neg h2] at hxy
      exact hxy

theorem rename_entry_nodup (dr : Bool) {dir : List Link} (hnd : (dir.map Link.name).Nodup)
    (x : List Nat) : ((rename_entry dr dir x).map Link.name).Nodup := by
  unfold rename_entry
  cases fstatat dir x with
  | none => exact hnd
  | some st =>
    simp only
    split_ifs
    · exact renameat2_noreplace_nodup hnd _ _
    · exact hnd

theorem rename_entry_names {dir : List Link} {x n : List Nat} {dr : Bool}
    (h : n ∈ (rename_entry dr dir x).map Link.name) :
    n ∈ dir.map Link.name ∨ ∃ st, fstatat dir x = some st ∧ n = new_name x st.is_reg := by
  unfold rename_entry at h
  cases hf : fstatat dir x with
  | none => rw [hf] at h; exact Or.inl h
  | some st =>
    rw [hf] at h
    simp only at h
    split_ifs at h
    · rw [renameat2_noreplace_names] at h
      split_ifs at h
      · exact Or.inl h
      · rw [List.mem_map] at h
        obtain ⟨m, hm, hmn⟩ := h
        split_ifs at hmn
        · exact Or.inr ⟨st, rfl, hmn.symm⟩
        · exact Or.inl (hmn ▸ hm)
    · exact Or.inl h

theorem rename_entry_renames {dir : List Link} (hnd : (dir.map Link.name).Nodup) {a : Link}
    (ha : a ∈ dir) {s : List Nat} (hsa : new_name a.name a.is_reg = s)
    (hs : s ≠ [] ∧ s ≠ [46] ∧ s ≠ [46, 46]) (hfree : s ∉ dir.map Link.name) :
    { a with name := s } ∈ rename_entry false dir a.name := by
  unfold rename_entry
  rw [fstatat_of_mem hnd ha]
  simp only [hsa, Bool.not_false, if_true]
  unfold renameat2_noreplace
  rw [if_neg (by
    rintro (h | h | h | h)
    · exact hs.1 h
    · exact hs.2.1 h
    · exact hs.2.2 h
    · exact hfree h)]
  rw [List.mem_map]
  exact ⟨a, ha, by simp⟩

theorem rename_entry_blocked {dir : List Link} (hnd : (dir.map Link.name).Nodup) {b : Link}
    (hb : b ∈ dir) {s : List Nat} (hsb : new_name b.name b.is_reg = s)
    (htaken : s ∈ dir.map Link.name) (dr : Bool) : rename_entry dr dir b.name = dir := by
  unfold rename_entry
  rw [fstatat_of_mem hnd hb]
  simp only [hsb]
  split_ifs
  · unfold renameat2_noreplace
    rw [if_pos (Or.inr (Or.inr (Or.inr htaken)))]
  · rfl


/-! ### the pass -/

theorem rename_pass_ino (dr : Bool) (names : List (List Nat)) :
    ∀ dir, (rename_pass dr dir names).map Link.ino = dir.map Link.ino := by
  unfold rename_pass
  induction names with
  | nil => intro dir; rfl
  | cons x xs ih =>
    intro dir
    rw [List.foldl_cons, ih, rename_entry_ino]

theorem rename_pass_keeps (dr : Bool) {l : Link} (names : List (List Nat)) :
    ∀ dir, l ∈ dir → l.name ∉ names → l ∈ rename_pass dr dir names := by
  unfold rename_pass
  induction names with
  | nil => intro dir h _; exact h
  | cons x xs ih =>
    intro dir h hn
    rw [List.foldl_cons]
    exact ih _ (rename_entry_keeps dr h (fun he => hn (by simp [he])))
      (fun hm => hn (by simp [hm]))

theorem rename_pass_nodup (dr : Bool) (names : List (List Nat)) :
    ∀ dir, (dir.map Link.name).Nodup → ((rename_pass dr dir names).map Link.name).Nodup := by
  unfold rename_pass
  induction names with
  | nil => intro dir h; exact h
  | cons x xs ih =>
    intro dir h
    rw [List.foldl_cons]
    exact ih _ (rename_entry_nodup dr h x)

theorem rename_pass_append (dr : Bool) (dir : List Link) (xs ys : List (List Nat)) :
    rename_pass dr dir (xs ++ ys) = rename_pass dr (rename_pass dr dir xs) ys := by
  unfold rename_pass
  rw [List.foldl_append]

theorem rename_pass_cons (dr : Bool) (dir : List Link) (x : List Nat) (xs : List (List Nat)) :
    rename_pass dr dir (x :: xs) = rename_pass dr (rename_entry dr dir x) xs := rfl

/-- A name that is free and that no processed entry sanitizes to stays free. -/
theorem rename_pass_free {dr : Bool} {s : List Nat} (names : List (List Nat)) :
    ∀ dir, names.Nodup → (dir.map Link.name).Nodup → s ∉ dir.map Link.name →
      (∀ x ∈ names, ∃ l ∈ dir, l.name = x ∧ new_name l.name l.is_reg ≠ s) →
      s ∉ (rename_pass dr dir names).map Link.name := by
  induction names with
  | nil => intro dir _ _ h _; exact h
  | cons x xs ih =>
    intro dir hx hnd hfree hall
    rw [rename_pass_cons]
    rw [List.nodup_cons] at hx
    refine ih _ hx.2 (rename_entry_nodup dr hnd x) ?_ ?_
    · intro hm
      rcases rename_entry_names hm with h | ⟨st, hst, hs⟩
      · exact hfree h
      · obtain ⟨l, hl, hlx, hne⟩ := hall x (by simp)
        have := fstatat_of_mem hnd hl
        rw [hlx, hst] at this
        cases this
        apply hne
        rw [hlx]
        exact hs.symm
    · intro y hy
      obtain ⟨l, hl, hly, hne⟩ := hall y (by simp [hy])
      refine ⟨l, rename_entry_keeps dr hl ?_, hly, hne⟩
      rw [hly]
      rintro rfl
      exact hx.1 hy

/-- C5, amended: in a directory with distinct names, let `a` and `b` be two entries
recorded for the pass whose sanitized names are the same name `s`, where `s` is not
empty, `.` or `..`, no entry of the directory is called `s` before the pass, `a` is
processed before `b`, and no entry processed before `a` sanitizes to `s`. Then after
the real-run pass the inode of `a` is called `s`, `b` still has its original name,
and the inodes of the directory are the same as before, in the same places. -/
theorem collision_first_processed_wins (dir : List Link) (before after : List (List Nat))
    (a b : Link) (s : List Nat)
    (hnd : (dir.map Link.name).Nodup) (ha : a ∈ dir) (hb : b ∈ dir)
    (horder : (before ++ a.name :: after).Nodup)
    (hsub : ∀ x ∈ before ++ a.name :: after, x ∈ dir.map Link.name)
    (hba : b.name ∈ after)
    (hsa : new_name a.name a.is_reg = s) (hsb : new_name b.name b.is_reg = s)
    (hfirst : ∀ l ∈ dir, l.name ∈ before → new_name l.name l.is_reg ≠ s)
    (hs : s ≠ [] ∧ s ≠ [46] ∧ s ≠ [46, 46]) (hfree : s ∉ dir.map Link.name) :
    { a with name := s } ∈ rename_pass false dir (before ++ a.name :: after) ∧
    b ∈ rename_pass false dir (before ++ a.name :: after) ∧
    (rename_pass false dir (before ++ a.name :: after)).map Link.ino = dir.map Link.ino := by
  refine ⟨?_, ?_, rename_pass_ino _ _ _⟩
  all_goals
    rw [rename_pass_append, rename_pass_cons]
    rw [List.nodup_append] at horder
    obtain ⟨hnb, hna, hdisj⟩ := horder
    rw [List.nodup_cons] at hna
    have ha_before : a.name ∉ before := fun h => hdisj h (by simp)
    have hb_before : b.name ∉ before := fun h => hdisj h (by simp [hba])
    have hab : b.name ≠ a.name := fun h => hna.1 (h ▸ hba)
    have hs_after : s ∉ after := fun h => hfree (hsub s (by simp [h]))
    have h1nd := rename_pass_nodup false before dir hnd
    have h1a := rename_pass_keeps false before dir ha ha_before
    have h1b := rename_pass_keeps false before dir hb hb_before
    have h1free : s ∉ (rename_pass false dir before).map Link.name := by
      refine rename_pass_free before dir hnb hnd hfree ?_
      intro x hx
      have hxd := hsub x (by simp [hx])
      rw [List.mem_map] at hxd
      obtain ⟨l, hl, hlx⟩ := hxd
      exact ⟨l, hl, hlx, hfirst l hl (hlx ▸ hx)⟩
    have h2a := rename_entry_renames h1nd h1a hsa hs h1free
    have h2b := rename_entry_keeps false h1b hab
    have h2nd := rename_entry_nodup false h1nd a.name
  · exact rename_pass_keeps false after _ h2a hs_after
  · obtain ⟨m1, m2, hm⟩ := List.append_of_mem hba
    rw [hm, rename_pass_append, rename_pass_cons]
    rw [hm] at hna hs_after
    have hnd2 := hna.2
    rw [List.nodup_append] at hnd2
    obtain ⟨_, hm2, hd2⟩ := hnd2
    rw [List.nodup_cons] at hm2
    have hb_m1 : b.name ∉ m1 := fun h => hd2 h (by simp)
    have hs_m1 : s ∉ m1 := fun h => hs_after (by simp [h])
    have h3nd := rename_pass_nodup false m1 _ h2nd
    have h3a := rename_pass_keeps false m1 _ h2a hs_m1
    have h3b := rename_pass_keeps false m1 _ h2b hb_m1
    have htaken : s ∈ (rename_pass false (rename_entry false (rename_pass false dir before) a.name)
        m1).map Link.name := List.mem_map.mpr ⟨_, h3a, rfl⟩
    rw [rename_entry_blocked h3nd h3b hsb htaken]
    exact rename_pass_keeps false m2 _ h3b hm2.1


theorem collision_first_processed_wins_witness :
    ({ (⟨cstr "A B.txt", 11, true⟩ : Link) with name := cstr "a_b.txt" } ∈
        rename_pass false siblingDir ([] ++ cstr "A B.txt" :: [cstr "A-B.txt"])) ∧
    (⟨cstr "A-B.txt", 12, true⟩ : Link) ∈
        rename_pass false siblingDir ([] ++ cstr "A B.txt" :: [cstr "A-B.txt"]) ∧
    (rename_pass false siblingDir ([] ++ cstr "A B.txt" :: [cstr "A-B.txt"])).map Link.ino =
      siblingDir.map Link.ino :=
  collision_first_processed_wins siblingDir [] [cstr "A-B.txt"] ⟨cstr "A B.txt", 11, true⟩
    ⟨cstr "A-B.txt", 12, true⟩ (cstr "a_b.txt") (by decide) (by decide) (by decide) (by decide)
    (by decide) (by decide) (by decide) (by decide) (by decide) (by decide) (by decide)

/-- C5, counterexample: `A B.txt` and `a_b.txt` are distinct siblings with the same
sanitized name `a_b.txt`, yet the real-run pass in discovery order leaves the directory
as it was: the earlier entry `A B.txt` is not renamed. -/
theorem collision_target_taken :
    (collisionDir.map Link.name).Nodup ∧
    new_name (cstr "A B.txt") true = new_name (cstr "a_b.txt") true ∧
    rename_pass false collisionDir [cstr "A B.txt", cstr "a_b.txt"] = collisionDir ∧
    (⟨cstr "A B.txt", 11, true⟩ : Link) ∈
      rename_pass false collisionDir [cstr "A B.txt", cstr "a_b.txt"] ∧
    ¬ ∃ l ∈ rename_pass false collisionDir [cstr "A B.txt", cstr "a_b.txt"],
      l.ino = 11 ∧ l.name = new_name (cstr "A B.txt") true := by
  decide

/-! ### root finalizer -/

/-- C7, evaluation: for the directory `/srv/data/MY DIR` given as root while the working
directory is `/home/u`, the rename requested by `main` has destination
`/home/u/my_dir`, not the in-place destination `/srv/data/my_dir`. -/
theorem root_rename_leaves_parent :
    root_rename false (cstr "/home/u") (cstr "/srv/data/MY DIR") false =
      some (cstr "/srv/data/MY DIR", cstr "/home/u/my_dir") ∧
    in_place_target (cstr "/srv/data/MY DIR") false = cstr "/srv/data/my_dir" ∧
    cstr "/home/u/my_dir" ≠ in_place_target (cstr "/srv/data/MY DIR") false := by
  decide

end SanitizeFs
